import Mathlib

/-!
Verification development for the DocumentIntelligence repository.

The two components with algorithmic content are embedded here:
 * `chunking.ts` (`DocumentChunker`): structural split, sliding-window
   chunking, chunk construction, validation and small-chunk merging.
 * `embeddings.ts` (`VectorSearchService`): an in-memory vector index with
   cosine-similarity top-K search.

JavaScript strings are modelled as `List Char`; JavaScript numbers that hold
character counts or indices are modelled as `Nat`/`Int`.  Embedding vectors
are modelled as `List ℚ` (exact idealisation of the float arithmetic).
The square roots produced by `Math.sqrt` are kept symbolic: a cosine
similarity is represented by the pair `(num, den2)` standing for the real
number `num / √den2`, which keeps every model function computable while an
interpretation function into `ℝ` gives the value semantics.
-/

namespace DocIntel

/-- JavaScript string type, modelled as a list of characters. -/
abbrev Str := List Char

/-- The whitespace class used by `\s`, `trim` and the word-boundary snap.
We model the ASCII whitespace characters (space, tab, LF, VT, FF, CR);
the exotic Unicode space code points never occur in the inputs considered. -/
def isJsWs (c : Char) : Bool :=
  c = ' ' || c = '\t' || c = '\n' || c = Char.ofNat 11 || c = Char.ofNat 12 || c = '\r'

/-- JS `String.prototype.trim`: strip whitespace from both ends. -/
def jsTrim (s : Str) : Str :=
  ((s.dropWhile isJsWs).reverse.dropWhile isJsWs).reverse

/-- Accumulator loop of `splitOnNl` (tail recursive so that concrete
evaluation stays within the kernel's stack). -/
def splitOnNlAux (acc : Str) (out : List Str) : Str → List Str
  | [] => (acc.reverse :: out).reverse
  | c :: cs =>
    if c = '\n' then splitOnNlAux [] (acc.reverse :: out) cs
    else splitOnNlAux (c :: acc) out cs

/-- JS `text.split('\n')`.  `"".split('\n') = [""]`, a trailing newline
produces a trailing empty line. -/
def splitOnNl (s : Str) : List Str := splitOnNlAux [] [] s

/-- First `n` characters, tail recursively. -/
def takeTR (n : Nat) (s : Str) : Str := takeTRAux n s []
where
  takeTRAux : Nat → Str → Str → Str
    | 0, _, acc => acc.reverse
    | _ + 1, [], acc => acc.reverse
    | n + 1, c :: cs, acc => takeTRAux n cs (c :: acc)

/-- JS `s.substring(a, b)` for `a ≤ b`: the characters at indices
`[a, b)` (all uses in the chunker satisfy `a ≤ b`). -/
def jsSubstring (s : Str) (a b : Nat) : Str :=
  takeTR (b - a) (s.drop a)

/-- JS `text.indexOf(pat, start)`: smallest index `i ≥ max start 0` at which
`pat` occurs as a substring, `none` for JS `-1` (not found).  A negative
`start` is treated as `0`, as in JS. -/
def jsIndexOfFrom (s pat : Str) (start : Int) : Option Nat :=
  (List.range (s.length + 1)).find? fun i =>
    (start ≤ (i : Int)) && pat.isPrefixOf (s.drop i)

/-- JS `s.lastIndexOf(c, start)` for a single-character needle: the greatest
index `i ≤ start` holding `c`, `none` for JS `-1`. -/
def jsLastIndexOfChar (s : Str) (c : Char) (start : Nat) : Option Nat :=
  lastIdxAux s c start 0 none
where
  lastIdxAux : Str → Char → Nat → Nat → Option Nat → Option Nat
    | [], _, _, _, best => best
    | x :: xs, c, start, i, best =>
      lastIdxAux xs c start (i + 1) (if i ≤ start && x = c then some i else best)

/-- Accumulator loop of `fieldsWS`: `prevWs` records whether the previous
character belonged to a whitespace run (so the run contributes a single
field boundary), `cur` is the reversed current field, `out` the reversed
finished fields. -/
def fieldsWSAux (prevWs : Bool) (cur : Str) (out : List Str) : Str → List Str
  | [] => (cur.reverse :: out).reverse
  | c :: cs =>
    if isJsWs c then
      if prevWs then fieldsWSAux true cur out cs
      else fieldsWSAux true [] (cur.reverse :: out) cs
    else fieldsWSAux false (c :: cur) out cs

/-- JS `content.split(/\s+/)`: the fields between maximal whitespace runs.
Leading (resp. trailing) whitespace contributes an empty first (resp. last)
field, exactly as in JS. -/
def fieldsWS (s : Str) : List Str := fieldsWSAux false [] [] s

/-- Specification-side notion for C9: the number of maximal non-empty
whitespace-separated tokens, counted as the number of positions that start
a token (a non-whitespace character whose predecessor is absent or
whitespace). -/
def tokenCountAux (prevWs : Bool) : Str → Nat
  | [] => 0
  | c :: cs =>
    (if !(isJsWs c) && prevWs then 1 else 0) + tokenCountAux (isJsWs c) cs

/-- Number of maximal non-empty whitespace-separated tokens of a string. -/
def tokenCount (s : Str) : Nat := tokenCountAux true s

/-- Decimal rendering of a `Nat`, as used by JS template literals. -/
def natToStr (n : Nat) : Str := (Nat.repr n).toList

/-- `ChunkingConfig` from `chunking.ts`. -/
structure ChunkingConfig where
  chunkSize : Nat
  overlap : Nat
  minChunkSize : Nat
  maxChunkSize : Nat
  deriving DecidableEq, Repr

/-- The constructor defaults: `{chunkSize: 1000, overlap: 200,
minChunkSize: 100, maxChunkSize: 2000}`. -/
def defaultConfig : ChunkingConfig := ⟨1000, 200, 100, 2000⟩

/-- The `metadata` record of a `DocumentChunk`.  The chunker fills every
field of the TS-optional record, so the model makes them total. -/
structure ChunkMetadata where
  documentId : Str
  startPosition : Int
  endPosition : Int
  wordCount : Nat
  charCount : Nat
  deriving DecidableEq, Repr, Inhabited

/-- `DocumentChunk` from `chunking.ts`.  The top-level optional
`documentId`/`documentTitle` fields are never written by the chunker and
are omitted from the model; `sectionName?: string` becomes `Option Str`. -/
structure DocumentChunk where
  id : Str
  content : Str
  sectionName : Option Str
  pageNumber : Int
  chunkIndex : Nat
  metadata : ChunkMetadata
  deriving DecidableEq, Repr, Inhabited

/-- `DocumentChunker.createChunk`.  `words` is
`content.split(/\s+/).filter(word => word.length > 0)`. -/
def createChunk (content : Str) (documentId : Str) (pageNumber : Int)
    (chunkIndex : Nat) (sectionName : Option Str)
    (startPosition endPosition : Int) : DocumentChunk :=
  let words := (fieldsWS content).filter fun w => 0 < w.length
  { id := documentId ++ "-chunk-".toList ++ natToStr chunkIndex
    content := content
    sectionName := sectionName
    pageNumber := pageNumber
    chunkIndex := chunkIndex
    metadata :=
      { documentId := documentId
        startPosition := startPosition
        endPosition := endPosition
        wordCount := words.length
        charCount := content.length } }

/-- A record produced by `splitByStructure`.  The TS field `section` is a
Lean keyword, so it is called `sectionLabel` here. -/
structure StructuralChunk where
  content : Str
  sectionLabel : Option Str
  startPos : Int
  endPos : Int
  deriving DecidableEq, Repr

/-- The header regex `^(#{1,6})\s+(.+)$` of `splitByStructure`, returning
capture group 2 on a match.  With 1–6 leading `#` the greedy `\s+` eats the
following whitespace run; `(.+)` needs at least one remaining character, and
when the line ends in the run the regex backtracks and group 2 is the run's
final whitespace character (possible only for runs of length ≥ 2). -/
def headerMatch (line : Str) : Option Str :=
  let k := (line.takeWhile fun c => c = '#').length
  if 1 ≤ k ∧ k ≤ 6 then
    let rest := line.drop k
    let wsRun := rest.takeWhile isJsWs
    let body := rest.drop wsRun.length
    if wsRun.length = 0 then none
    else if body ≠ [] then some body
    else if 2 ≤ wsRun.length then
      match wsRun.reverse with
      | x :: _ => some [x]
      | [] => none
    else none
  else none

/-- `currentSection || undefined`: the empty string is falsy. -/
def strOrUndef (s : Str) : Option Str := if s = [] then none else some s

/-- The line loop of `splitByStructure`, carried state: remaining lines,
`currentSection`, `currentContent`, `startPos`. -/
def sbsLoop (text : Str) : List Str → Str → Str → Int → List StructuralChunk
  | [], curSec, curCont, startPos =>
    if jsTrim curCont ≠ [] then
      [⟨jsTrim curCont, strOrUndef curSec, startPos, startPos + (curCont.length : Int)⟩]
    else []
  | line :: rest, curSec, curCont, startPos =>
    match headerMatch line with
    | some title =>
      (if jsTrim curCont ≠ [] then
        [⟨jsTrim curCont, strOrUndef curSec, startPos, startPos + (curCont.length : Int)⟩]
      else []) ++
      sbsLoop text rest (jsTrim title) (line ++ ['\n'])
        (match jsIndexOfFrom text line startPos with
         | some i => (i : Int)
         | none => -1)
    | none => sbsLoop text rest curSec (curCont ++ line ++ ['\n']) startPos

/-- `DocumentChunker.splitByStructure`.  The `sections` parameter is unused,
as in the source. -/
def splitByStructure (text : Str) (sections : List Str) : List StructuralChunk :=
  let _ := sections
  let out := sbsLoop text (splitOnNl text) [] [] 0
  if out = [] then [⟨text, none, 0, (text.length : Int)⟩] else out

/-- The bug at `chunkPage`'s branch guard: the source compares
`structuralChunk.length`, a property the structural-chunk object does not
have, so the comparison is `undefined <= chunkSize`, which is `false` in JS
for every `chunkSize`. -/
def undefLeNat (_n : Nat) : Bool := false

/-- The window end computed by one iteration of
`DocumentChunker.slidingWindowChunk`: `min(start + chunkSize, L)` with the
word-boundary snap `lastIndexOf(' ', endPos)` applied when the window's
right edge falls strictly inside the content and the found space lies
strictly after `start`. -/
def swWindowEnd (cfg : ChunkingConfig) (content : Str) (startPos : Nat) : Nat :=
  let endPos := min (startPos + cfg.chunkSize) content.length
  if endPos < content.length then
    match jsLastIndexOfChar content ' ' endPos with
    | some lastSpace => if startPos < lastSpace then lastSpace else endPos
    | none => endPos
  else endPos

/-- The next window start: `max(start + 1, windowEnd − overlap)` (the JS
subtraction can go negative; the max makes `Nat` truncation equivalent). -/
def swNextStart (cfg : ChunkingConfig) (content : Str) (startPos : Nat) : Nat :=
  max (startPos + 1) (swWindowEnd cfg content startPos - cfg.overlap)

/-- The `while (startPos < contentLength)` loop of `slidingWindowChunk`.
The loop strictly increases `startPos`, so `content.length - startPos` is a
sufficient fuel budget; `swLoop_fuel_irrel` below shows the result does not
depend on the fuel once it is sufficient. -/
def swLoop (cfg : ChunkingConfig) (content : Str) (documentId : Str)
    (pageNumber : Int) (sectionName : Option Str) (globalStartPos : Int) :
    Nat → Nat → Nat → List DocumentChunk
  | 0, _, _ => []
  | fuel + 1, startPos, chunkIndex =>
    if startPos < content.length then
      let endPos := swWindowEnd cfg content startPos
      let chunkContent := jsTrim (jsSubstring content startPos endPos)
      let emitted :=
        if cfg.minChunkSize ≤ chunkContent.length then
          [createChunk chunkContent documentId pageNumber chunkIndex sectionName
            (globalStartPos + (startPos : Int)) (globalStartPos + (endPos : Int))]
        else []
      emitted ++ swLoop cfg content documentId pageNumber sectionName globalStartPos
        fuel (swNextStart cfg content startPos) (chunkIndex + emitted.length)
    else []

/-- Number of iterations the sliding-window loop performs (same recursion
as `swLoop`, counting). -/
def swIterCount (cfg : ChunkingConfig) (content : Str) :
    Nat → Nat → Nat
  | 0, _ => 0
  | fuel + 1, startPos =>
    if startPos < content.length then
      1 + swIterCount cfg content fuel (swNextStart cfg content startPos)
    else 0

/-- `DocumentChunker.slidingWindowChunk`. -/
def slidingWindowChunk (cfg : ChunkingConfig) (content : Str)
    (documentId : Str) (pageNumber : Int) (startChunkIndex : Nat)
    (sectionName : Option Str) (globalStartPos : Int) : List DocumentChunk :=
  swLoop cfg content documentId pageNumber sectionName globalStartPos
    content.length 0 startChunkIndex

/-- The structural-chunk loop of `DocumentChunker.chunkPage`.  The branch
guard is the source's `structuralChunk.length <= this.config.chunkSize`,
which is always false (`undefLeNat`), so every section reaches the
sliding-window splitter. -/
def cpLoop (cfg : ChunkingConfig) (documentId : Str) (pageNumber : Int) :
    List StructuralChunk → Nat → List DocumentChunk
  | [], _ => []
  | sc :: rest, chunkIndex =>
    if undefLeNat cfg.chunkSize then
      createChunk sc.content documentId pageNumber chunkIndex sc.sectionLabel
        sc.startPos sc.endPos ::
      cpLoop cfg documentId pageNumber rest (chunkIndex + 1)
    else
      let slidingChunks := slidingWindowChunk cfg sc.content documentId
        pageNumber chunkIndex sc.sectionLabel sc.startPos
      slidingChunks ++ cpLoop cfg documentId pageNumber rest
        (chunkIndex + slidingChunks.length)

/-- The page value passed to `chunkPage`. -/
structure PageInput where
  text : Str
  pageNumber : Int
  sections : List Str
  deriving Repr

/-- `DocumentChunker.chunkPage`. -/
def chunkPage (cfg : ChunkingConfig) (page : PageInput) (documentId : Str)
    (startChunkIndex : Nat) : List DocumentChunk :=
  cpLoop cfg documentId page.pageNumber
    (splitByStructure page.text page.sections) startChunkIndex

/-- `OCRResult.metadata` (the `confidence` field is unused by the chunker
and omitted). -/
structure OCRMeta where
  pageNumber : Int
  sections : List Str
  deriving Repr

/-- `OCRResult` from `ocr.ts`, restricted to the fields the chunker reads. -/
structure OCRResult where
  text : Str
  metadata : OCRMeta
  deriving Repr

/-- The page loop of `DocumentChunker.chunkDocument`, carrying
`globalChunkIndex`. -/
def cdLoop (cfg : ChunkingConfig) (documentId : Str) :
    List OCRResult → Nat → List DocumentChunk
  | [], _ => []
  | r :: rest, globalChunkIndex =>
    let pageChunks := chunkPage cfg ⟨r.text, r.metadata.pageNumber, r.metadata.sections⟩
      documentId globalChunkIndex
    pageChunks ++ cdLoop cfg documentId rest (globalChunkIndex + pageChunks.length)

/-- `DocumentChunker.chunkDocument`. -/
def chunkDocument (cfg : ChunkingConfig) (ocrResults : List OCRResult)
    (documentId : Str) : List DocumentChunk :=
  cdLoop cfg documentId ocrResults 0

/-- `DocumentChunker.validateChunk`. -/
def validateChunk (cfg : ChunkingConfig) (chunk : DocumentChunk) : Bool :=
  cfg.minChunkSize ≤ chunk.content.length &&
  chunk.content.length ≤ cfg.maxChunkSize &&
  10 ≤ chunk.metadata.wordCount

/-- `'\n\n'.join`-style interleaving used by `mergeChunkGroup`
(`chunks.map(c => c.content).join('\n\n')`). -/
def joinSep : List Str → Str
  | [] => []
  | [x] => x
  | x :: y :: rest => x ++ '\n' :: '\n' :: joinSep (y :: rest)

/-- `DocumentChunker.mergeChunkGroup`.  The source is never called on an
empty group (it would throw); the model returns `default` there. -/
def mergeChunkGroup (chunks : List DocumentChunk) : DocumentChunk :=
  match chunks with
  | [] => default
  | [c] => c
  | first :: rest =>
    let lastChunk := (first :: rest).getLast (by simp)
    let mergedContent := joinSep ((first :: rest).map fun c => c.content)
    let words := (fieldsWS mergedContent).filter fun w => 0 < w.length
    { id := first.metadata.documentId ++ "-merged-".toList ++
        natToStr first.chunkIndex ++ ['-'] ++ natToStr lastChunk.chunkIndex
      content := mergedContent
      sectionName := first.sectionName
      pageNumber := first.pageNumber
      chunkIndex := first.chunkIndex
      metadata :=
        { documentId := first.metadata.documentId
          startPosition := first.metadata.startPosition
          endPosition := lastChunk.metadata.endPosition
          wordCount := words.length
          charCount := mergedContent.length } }

/-- The loop of `DocumentChunker.mergeSmallChunks`: `cur` is the
accumulated `currentMerge` buffer. -/
def msLoop (cfg : ChunkingConfig) : List DocumentChunk → List DocumentChunk →
    List DocumentChunk
  | cur, [] => if cur = [] then [] else [mergeChunkGroup cur]
  | cur, c :: rest =>
    if validateChunk cfg c then
      (if cur = [] then [] else [mergeChunkGroup cur]) ++ c :: msLoop cfg [] rest
    else msLoop cfg (cur ++ [c]) rest

/-- `DocumentChunker.mergeSmallChunks`. -/
def mergeSmallChunks (cfg : ChunkingConfig) (chunks : List DocumentChunk) :
    List DocumentChunk :=
  msLoop cfg [] chunks

/-! ## Vector search (`embeddings.ts`, `VectorSearchService`) -/

/-- Embedding vectors, exact idealisation of `number[]`. -/
abbrev Vec := List ℚ

/-- The dot-product loop of `cosineSimilarity` (the loops run over paired
indices; vectors reaching them always have equal length). -/
def dotProduct (v1 v2 : Vec) : ℚ := (List.zipWith (fun a b => a * b) v1 v2).sum

/-- `norm` accumulator of `cosineSimilarity` before the `Math.sqrt`:
the sum of squares of a vector.  The vector has zero magnitude iff this
is zero. -/
def sumSq (v : Vec) : ℚ := (v.map fun x => x * x).sum

/-- Exact representation of a similarity score produced by
`cosineSimilarity`: the float `dotProduct / (Math.sqrt(norm1) * Math.sqrt(norm2))`
is represented by `num = dotProduct` and `den2 = norm1 * norm2` (sums of
squares), standing for the real `num / √den2`.  `den2 = 0` is the division
by zero: since a zero-magnitude factor forces `num = 0`, that case is JS
`0/0 = NaN`. -/
structure SimScore where
  num : ℚ
  den2 : ℚ
  deriving DecidableEq, Repr

/-- `VectorSearchService.cosineSimilarity`. -/
def cosineSimilarity (v1 v2 : Vec) : SimScore :=
  ⟨dotProduct v1 v2, sumSq v1 * sumSq v2⟩

/-- The score is the float `NaN` (division `0/0`). -/
def SimScore.isNaN (s : SimScore) : Bool := s.den2 = 0 && s.num = 0

/-- The score is the real number `0` (a genuine, non-NaN zero). -/
def SimScore.isZeroScore (s : SimScore) : Prop := s.den2 ≠ 0 ∧ s.num = 0

/-- The real value of a (non-NaN) score. -/
noncomputable def SimScore.val (s : SimScore) : ℝ :=
  (s.num : ℝ) / Real.sqrt (s.den2 : ℝ)

/-- The score lies in the closed interval `[0, 1]` — in particular it is an
actual number, not `NaN`. -/
def SimScore.inZeroOne (s : SimScore) : Prop :=
  s.den2 ≠ 0 ∧ 0 ≤ s.val ∧ s.val ≤ 1

/-- `Math.max(0, cosineSim)` from `search`: for a non-NaN score the sign of
the value is the sign of `num`, so clamping clamps `num`; `Math.max(0, NaN)`
is `NaN` (the score is returned unchanged). -/
def clampScore (s : SimScore) : SimScore :=
  if s.den2 = 0 then s else ⟨max 0 s.num, s.den2⟩

/-- `VectorSearchService.calculateDistance` squared: the source returns
`Math.sqrt` of this sum; the model stores the radicand exactly. -/
def calculateDistanceSq (v1 v2 : Vec) : ℚ :=
  ((List.zipWith (fun a b => a - b) v1 v2).map fun d => d * d).sum

/-- An entry of the `embeddings` map: `{ vector, chunk }`. -/
structure IndexEntry where
  vector : Vec
  chunk : DocumentChunk
  deriving DecidableEq, Repr, Inhabited

/-- The `Map<string, {vector, chunk}>` of `VectorSearchService`, modelled as
its insertion-ordered entry list. -/
abbrev VectorIndex := List (Str × IndexEntry)

/-- JS `Map.prototype.set`: overwrite in place if the key is present,
append otherwise. -/
def mapSet (m : VectorIndex) (k : Str) (v : IndexEntry) : VectorIndex :=
  match m with
  | [] => [(k, v)]
  | (k0, v0) :: rest => if k0 = k then (k, v) :: rest else (k0, v0) :: mapSet rest k v

/-- JS `Map.prototype.get`. -/
def mapGet (m : VectorIndex) (k : Str) : Option IndexEntry :=
  match m with
  | [] => none
  | (k0, v0) :: rest => if k0 = k then some v0 else mapGet rest k

/-- The keys of the map, in insertion order. -/
def mapKeys (m : VectorIndex) : List Str := m.map fun p => p.1

/-- `VectorSearchService.addChunk`.  `generateEmbedding` invokes the
external embedding model; it is deterministic in the text, so the model
takes it as a function parameter `embed`. -/
def addChunk (embed : Str → Vec) (m : VectorIndex) (chunk : DocumentChunk) :
    VectorIndex :=
  mapSet m chunk.id ⟨embed chunk.content, chunk⟩

/-- A sequence of `addChunk` inserts. -/
def insertChunks (embed : Str → Vec) (m : VectorIndex)
    (chunks : List DocumentChunk) : VectorIndex :=
  chunks.foldl (addChunk embed) m

/-- An element of the `similarities` array built by `search`
(`{ chunkId, score, distance }`, the distance kept as its square). -/
structure SimEntry where
  chunkId : Str
  score : SimScore
  distanceSq : ℚ
  deriving DecidableEq, Repr

/-- The descending comparator `(a, b) => b.score - a.score` of `search`,
decided exactly on the representation: for clamped scores
(`num ≥ 0`, `den2 > 0`), `val a ≥ val b ⟺ b.num² · a.den2 ≤ a.num² · b.den2`. -/
def scoreGe (a b : SimScore) : Bool :=
  b.num * b.num * a.den2 ≤ a.num * a.num * b.den2

/-- Insertion step of the sort by descending score. -/
def insertByScore (x : SimEntry) : List SimEntry → List SimEntry
  | [] => [x]
  | y :: ys => if scoreGe x.score y.score then x :: y :: ys else y :: insertByScore x ys

/-- `similarities.sort((a, b) => b.score - a.score)`: sorting by
non-increasing score. -/
def sortByScoreDesc (l : List SimEntry) : List SimEntry :=
  l.foldr insertByScore []

/-- `SearchResult` from `embeddings.ts` (distance kept as its square). -/
structure SearchResult where
  chunk : DocumentChunk
  score : SimScore
  distanceSq : ℚ
  deriving DecidableEq, Repr

/-- `VectorSearchService.search`. -/
def search (embed : Str → Vec) (m : VectorIndex) (query : Str) (topK : Nat) :
    List SearchResult :=
  if m.length = 0 then []
  else
    let queryVector := embed query
    let similarities := m.map fun p =>
      SimEntry.mk p.1 (clampScore (cosineSimilarity queryVector p.2.vector))
        (calculateDistanceSq queryVector p.2.vector)
    let sorted := sortByScoreDesc similarities
    let topResults := sorted.take topK
    topResults.map fun r =>
      SearchResult.mk ((mapGet m r.chunkId).getD default).chunk r.score r.distanceSq

/-! ## General lemmas about the sliding-window loop -/

theorem swNextStart_gt (cfg : ChunkingConfig) (content : Str) (s : Nat) :
    s < swNextStart cfg content s :=
  Nat.lt_of_lt_of_le (Nat.lt_succ_self s) (Nat.le_max_left _ _)

theorem swIterCount_of_ge (cfg : ChunkingConfig) (content : Str) (fuel s : Nat)
    (h : content.length ≤ s) : swIterCount cfg content fuel s = 0 := by
  cases fuel with
  | zero => rfl
  | succ fuel => simp [swIterCount, Nat.not_lt.mpr h]

theorem swIterCount_le (cfg : ChunkingConfig) (content : Str) :
    ∀ fuel s, swIterCount cfg content fuel s ≤ content.length - s := by
  intro fuel
  induction fuel with
  | zero => intro s; simp [swIterCount]
  | succ fuel ih =>
    intro s
    by_cases hs : s < content.length
    · have hnext := swNextStart_gt cfg content s
      have := ih (swNextStart cfg content s)
      simp only [swIterCount, if_pos hs]
      omega
    · simp [swIterCount, hs]

theorem swIterCount_fuel_irrel (cfg : ChunkingConfig) (content : Str) :
    ∀ fuel fuel2 s, content.length - s ≤ fuel → content.length - s ≤ fuel2 →
      swIterCount cfg content fuel s = swIterCount cfg content fuel2 s := by
  intro fuel
  induction fuel with
  | zero =>
    intro fuel2 s h _
    rw [swIterCount_of_ge cfg content fuel2 s (by omega)]
    rfl
  | succ fuel ih =>
    intro fuel2 s h h2
    by_cases hs : s < content.length
    · cases fuel2 with
      | zero => omega
      | succ fuel2 =>
        have hnext := swNextStart_gt cfg content s
        simp only [swIterCount, if_pos hs]
        rw [ih fuel2 (swNextStart cfg content s) (by omega) (by omega)]
    · rw [swIterCount_of_ge cfg content _ s (by omega),
        swIterCount_of_ge cfg content _ s (by omega)]

/-! ## Claim C4: termination and iteration count of the sliding window -/

/-- The 20-character space-free section used to refute the claimed
iteration bound. -/
def content20 : Str := List.replicate 20 'a'

/-- A configuration with `chunkSize = 10`, `overlap = 5`
(so `overlap < chunkSize`). -/
def cfg45 : ChunkingConfig := ⟨10, 5, 1, 2000⟩

/-- C4, counterexample: with `overlap < chunkSize` (5 < 10) the
sliding-window loop on a 20-character section performs 8 iterations,
exceeding the claimed bound `⌈L / (chunkSize − overlap)⌉ + 1 = 5`: once the
window end reaches the end of the section, the start advances by only one
character per iteration. -/
theorem c4_iteration_bound_refuted :
    cfg45.overlap < cfg45.chunkSize ∧ content20.length = 20 ∧
    swIterCount cfg45 content20 20 0 = 8 ∧
    ¬(swIterCount cfg45 content20 20 0 ≤
        (20 + (cfg45.chunkSize - cfg45.overlap) - 1) /
          (cfg45.chunkSize - cfg45.overlap) + 1) := by
  decide

/-- C4, amended: for every configuration (no `overlap < chunkSize`
hypothesis is even needed) and every section content, the sliding-window
loop terminates: a fuel budget of `L − start` suffices and the iteration
count does not depend on the fuel beyond it; the count is at most
`L − start ≤ L`; and the window start strictly increases on every
iteration because it advances to `max(start + 1, windowEnd − overlap)`. -/
theorem c4_sliding_window_terminates (cfg : ChunkingConfig) (content : Str)
    (fuel s : Nat) (h : content.length - s ≤ fuel) :
    swIterCount cfg content fuel s =
      swIterCount cfg content (content.length - s) s ∧
    swIterCount cfg content fuel s ≤ content.length - s ∧
    s < swNextStart cfg content s :=
  ⟨swIterCount_fuel_irrel cfg content fuel (content.length - s) s h le_rfl,
   swIterCount_le cfg content fuel s,
   swNextStart_gt cfg content s⟩

/-- Witness for C4 at a concrete input: the hypothesis holds for the
20-character section with the full fuel budget. -/
theorem c4_sliding_window_terminates_witness :
    content20.length - 0 ≤ 20 ∧
    (swIterCount cfg45 content20 20 0 =
        swIterCount cfg45 content20 (content20.length - 0) 0 ∧
      swIterCount cfg45 content20 20 0 ≤ content20.length - 0 ∧
      0 < swNextStart cfg45 content20 0) :=
  ⟨by decide, c4_sliding_window_terminates cfg45 content20 20 0 (by decide)⟩

/-! ## Claim C5: global strictly increasing chunk indices -/

theorem swLoop_chunkIndex (cfg : ChunkingConfig) (content : Str)
    (documentId : Str) (pageNumber : Int) (sectionName : Option Str)
    (globalStartPos : Int) :
    ∀ fuel s k,
      (swLoop cfg content documentId pageNumber sectionName globalStartPos
          fuel s k).map (fun c => c.chunkIndex) =
        List.range' k (swLoop cfg content documentId pageNumber sectionName
          globalStartPos fuel s k).length := by
  intro fuel
  induction fuel with
  | zero => intro s k; rfl
  | succ fuel ih =>
    intro s k
    by_cases hs : s < content.length
    · simp only [swLoop, if_pos hs]
      by_cases hc : cfg.minChunkSize ≤
          (jsTrim (jsSubstring content s (swWindowEnd cfg content s))).length
      · simp only [if_pos hc, List.map_append, List.map_cons, List.map_nil,
          List.length_append, List.length_cons, List.length_nil, ih,
          createChunk, Nat.zero_add]
        rw [Nat.add_comm 1, List.range'_succ]
        simp
      · simpa only [if_neg hc, List.nil_append, List.length_nil,
          Nat.add_zero] using ih (swNextStart cfg content s) k
    · simp [swLoop, hs]

theorem slidingWindowChunk_chunkIndex (cfg : ChunkingConfig) (content : Str)
    (documentId : Str) (pageNumber : Int) (startChunkIndex : Nat)
    (sectionName : Option Str) (globalStartPos : Int) :
    (slidingWindowChunk cfg content documentId pageNumber startChunkIndex
        sectionName globalStartPos).map (fun c => c.chunkIndex) =
      List.range' startChunkIndex (slidingWindowChunk cfg content documentId
        pageNumber startChunkIndex sectionName globalStartPos).length :=
  swLoop_chunkIndex cfg content documentId pageNumber sectionName
    globalStartPos content.length 0 startChunkIndex

theorem cpLoop_chunkIndex (cfg : ChunkingConfig) (documentId : Str)
    (pageNumber : Int) :
    ∀ scs k,
      (cpLoop cfg documentId pageNumber scs k).map (fun c => c.chunkIndex) =
        List.range' k (cpLoop cfg documentId pageNumber scs k).length := by
  intro scs
  induction scs with
  | nil => intro k; rfl
  | cons sc rest ih =>
    intro k
    simp only [cpLoop, undefLeNat, Bool.false_eq_true, if_false,
      List.map_append, List.length_append, slidingWindowChunk_chunkIndex,
      ih]
    rw [List.range'_append_1]
    congr 1
    omega

theorem chunkPage_chunkIndex (cfg : ChunkingConfig) (page : PageInput)
    (documentId : Str) (k : Nat) :
    (chunkPage cfg page documentId k).map (fun c => c.chunkIndex) =
      List.range' k (chunkPage cfg page documentId k).length :=
  cpLoop_chunkIndex cfg documentId page.pageNumber _ k

theorem cdLoop_chunkIndex (cfg : ChunkingConfig) (documentId : Str) :
    ∀ ocrResults k,
      (cdLoop cfg documentId ocrResults k).map (fun c => c.chunkIndex) =
        List.range' k (cdLoop cfg documentId ocrResults k).length := by
  intro ocrResults
  induction ocrResults with
  | nil => intro k; rfl
  | cons r rest ih =>
    intro k
    simp only [cdLoop, List.map_append, List.length_append,
      chunkPage_chunkIndex, ih]
    rw [List.range'_append_1]
    congr 1
    omega

/-- C5: the `chunkIndex` values of `chunkDocument`'s output are exactly
`0, 1, 2, …` in order — a strictly increasing sequence starting at 0,
global across all pages of the document. -/
theorem c5_chunk_indices_globally_increasing (cfg : ChunkingConfig)
    (ocrResults : List OCRResult) (documentId : Str) :
    (chunkDocument cfg ocrResults documentId).map (fun c => c.chunkIndex) =
      List.range (chunkDocument cfg ocrResults documentId).length := by
  rw [List.range_eq_range']
  exact cdLoop_chunkIndex cfg documentId ocrResults 0

/-! ## Claim C1: the per-section branch is dead code (`structuralChunk.length`) -/

/-- A page of exactly 3 headed sections (`# A`, `# B`, `# C`), each of
trimmed content length exactly 50. -/
def text3Sections : Str :=
  "# A".toList ++ '\n' :: List.replicate 46 'a' ++
  '\n' :: "# B".toList ++ '\n' :: List.replicate 46 'b' ++
  '\n' :: "# C".toList ++ '\n' :: List.replicate 46 'c'

/-- C1, failing input: the structural split of the 3-headed-section page
produces exactly the 3 sections of length 50 tagged `A`, `B`, `C`, yet
`chunkPage` with `chunkSize = 1000` (and the default
`minChunkSize = 100`) emits no chunk at all: the branch guard
`structuralChunk.length <= this.config.chunkSize` reads a property the
structural-chunk object does not have, `undefined <= 1000` is false, so all
three sections go to the sliding-window splitter, which drops every window
as shorter than `minChunkSize`.  The claimed behaviour (3 chunks, one per
section, carrying its `sectionName`) does not occur. -/
theorem c1_three_sections_page_yields_no_chunks :
    (splitByStructure text3Sections []).map
        (fun sc => (sc.content.length, sc.sectionLabel)) =
      [(50, some "A".toList), (50, some "B".toList), (50, some "C".toList)] ∧
    chunkPage defaultConfig ⟨text3Sections, 1, []⟩ "doc".toList 0 = [] := by
  constructor
  · decide
  · decide

/-! ## Symbolic evaluation lemmas for uniform (`replicate`) page content -/

theorem takeTRAux_eq (n : Nat) (s acc : Str) :
    takeTR.takeTRAux n s acc = acc.reverse ++ s.take n := by
  induction s generalizing n acc with
  | nil => cases n <;> simp [takeTR.takeTRAux]
  | cons c cs ih =>
    cases n with
    | zero => simp [takeTR.takeTRAux]
    | succ n => simp [takeTR.takeTRAux, ih]

theorem takeTR_eq_take (n : Nat) (s : Str) : takeTR n s = s.take n := by
  simp [takeTR, takeTRAux_eq]

theorem jsSubstring_eq (s : Str) (a b : Nat) :
    jsSubstring s a b = (s.drop a).take (b - a) := by
  simp [jsSubstring, takeTR_eq_take]

theorem jsSubstring_replicate (L a b : Nat) (c : Char) :
    jsSubstring (List.replicate L c) a b =
      List.replicate (min (b - a) (L - a)) c := by
  simp [jsSubstring_eq]

theorem dropWhile_replicate_a (n : Nat) :
    List.dropWhile isJsWs (List.replicate n 'a') = List.replicate n 'a' := by
  cases n with
  | zero => rfl
  | succ n => rw [List.replicate_succ, List.dropWhile_cons]; simp [isJsWs]

theorem jsTrim_replicate_a (n : Nat) :
    jsTrim (List.replicate n 'a') = List.replicate n 'a' := by
  rw [jsTrim, dropWhile_replicate_a, List.reverse_replicate,
    dropWhile_replicate_a, List.reverse_replicate]

theorem lastIdxAux_of_not_mem (c : Char) (s : Str) :
    ∀ start i best, (∀ x ∈ s, x ≠ c) →
      jsLastIndexOfChar.lastIdxAux s c start i best = best := by
  induction s with
  | nil => intro start i best _; rfl
  | cons x xs ih =>
    intro start i best h
    have hx : x ≠ c := h x (List.mem_cons_self x xs)
    rw [jsLastIndexOfChar.lastIdxAux, ih _ _ _ fun y hy => h y (List.mem_cons_of_mem x hy)]
    simp [hx]

theorem jsLastIndexOfChar_replicate_a (n start : Nat) :
    jsLastIndexOfChar (List.replicate n 'a') ' ' start = none := by
  refine lastIdxAux_of_not_mem ' ' _ start 0 none fun x hx => ?_
  rw [List.eq_of_mem_replicate hx]
  decide

theorem swWindowEnd_replicate (cfg : ChunkingConfig) (L s : Nat) :
    swWindowEnd cfg (List.replicate L 'a') s = min (s + cfg.chunkSize) L := by
  simp only [swWindowEnd, List.length_replicate, jsLastIndexOfChar_replicate_a]
  split <;> rfl

theorem swLoop_replicate_step (cfg : ChunkingConfig) (d : Str)
    (pn : Int) (sn : Option Str) (g : Int) (L fuel s k : Nat) (hs : s < L) :
    swLoop cfg (List.replicate L 'a') d pn sn g (fuel + 1) s k =
      (if cfg.minChunkSize ≤ min (s + cfg.chunkSize) L - s then
        [createChunk (List.replicate (min (s + cfg.chunkSize) L - s) 'a') d pn
          k sn (g + (s : Int)) (g + ((min (s + cfg.chunkSize) L : Nat) : Int))]
      else []) ++
      swLoop cfg (List.replicate L 'a') d pn sn g fuel
        (max (s + 1) (min (s + cfg.chunkSize) L - cfg.overlap))
        (k + if cfg.minChunkSize ≤ min (s + cfg.chunkSize) L - s then 1 else 0) := by
  have hmin : min (s + cfg.chunkSize) L - s ≤ L - s := by omega
  rw [swLoop]
  simp only [List.length_replicate]
  rw [if_pos hs]
  simp only [swWindowEnd_replicate, jsSubstring_replicate, swNextStart,
    min_eq_left hmin, jsTrim_replicate_a, List.length_replicate]
  by_cases hc : cfg.minChunkSize ≤ min (s + cfg.chunkSize) L - s
  · simp [hc]
  · simp [hc]

theorem swLoop_of_ge (cfg : ChunkingConfig) (content d : Str) (pn : Int)
    (sn : Option Str) (g : Int) (fuel s k : Nat)
    (h : content.length ≤ s) :
    swLoop cfg content d pn sn g fuel s k = [] := by
  cases fuel with
  | zero => rfl
  | succ fuel => simp [swLoop, Nat.not_lt.mpr h]

/-! ## Claim C6: start offsets of the 2500-character headerless page -/

theorem splitOnNlAux_no_nl (s : Str) (h : ∀ x ∈ s, x ≠ '\n') :
    ∀ acc out, splitOnNlAux acc out s = out.reverse ++ [acc.reverse ++ s] := by
  induction s with
  | nil => intro acc out; simp [splitOnNlAux]
  | cons c cs ih =>
    intro acc out
    have hc : c ≠ '\n' := h c (List.mem_cons_self c cs)
    rw [splitOnNlAux, if_neg hc,
      ih (fun y hy => h y (List.mem_cons_of_mem c hy))]
    simp

theorem splitOnNl_replicate_a (n : Nat) :
    splitOnNl (List.replicate n 'a') = [List.replicate n 'a'] := by
  rw [splitOnNl, splitOnNlAux_no_nl]
  · simp
  · intro x hx
    rw [List.eq_of_mem_replicate hx]
    decide

theorem headerMatch_replicate_a (n : Nat) :
    headerMatch (List.replicate n 'a') = none := by
  cases n with
  | zero => rfl
  | succ n =>
    rw [headerMatch, List.replicate_succ]
    simp [List.takeWhile_cons]

theorem jsTrim_replicate_a_append_nl (n : Nat) (h : 0 < n) :
    jsTrim (List.replicate n 'a' ++ ['\n']) = List.replicate n 'a' := by
  obtain ⟨m, rfl⟩ : ∃ m, n = m + 1 := ⟨n - 1, by omega⟩
  have h1 : List.dropWhile isJsWs (List.replicate (m + 1) 'a' ++ ['\n']) =
      List.replicate (m + 1) 'a' ++ ['\n'] := by
    rw [List.replicate_succ, List.cons_append, List.dropWhile_cons]
    simp [show isJsWs 'a' = false from by decide]
  rw [jsTrim, h1, List.reverse_append, List.reverse_cons, List.reverse_nil,
    List.nil_append, List.reverse_replicate, List.singleton_append,
    List.dropWhile_cons]
  simp only [show isJsWs '\n' = true from by decide, if_true,
    dropWhile_replicate_a, List.reverse_replicate]

theorem splitByStructure_replicate_a (n : Nat) (h : 0 < n) (secs : List Str) :
    splitByStructure (List.replicate n 'a') secs =
      [⟨List.replicate n 'a', none, 0, ((n : Int) + 1)⟩] := by
  rw [splitByStructure]
  have htrim := jsTrim_replicate_a_append_nl n h
  have hne : jsTrim (List.replicate n 'a' ++ ['\n']) ≠ [] := by
    rw [htrim]
    intro hc
    have := congrArg List.length hc
    simp at this
    omega
  simp only [splitOnNl_replicate_a, sbsLoop, headerMatch_replicate_a,
    List.nil_append, hne, htrim, if_true, strOrUndef, if_pos,
    List.length_append, List.length_replicate, List.length_cons,
    List.length_nil]
  norm_num
  simp [show ¬(n = 0) by omega]

theorem createChunk_startPosition (content documentId : Str)
    (pageNumber : Int) (chunkIndex : Nat) (sectionName : Option Str)
    (sp ep : Int) :
    (createChunk content documentId pageNumber chunkIndex sectionName
      sp ep).metadata.startPosition = sp := rfl

theorem c6_tailLoop (d : Str) (pn : Int) (sn : Option Str) (g : Int) :
    ∀ fuel s k, 2300 ≤ s → 2500 ≤ s + fuel →
      (swLoop defaultConfig (List.replicate 2500 'a') d pn sn g fuel s k).map
          (fun c => c.metadata.startPosition) =
        (List.range' s (2401 - s)).map (fun t : Nat => g + (t : Int)) := by
  intro fuel
  induction fuel with
  | zero =>
    intro s k h1 h2
    simp [swLoop, show 2401 - s = 0 by omega]
  | succ fuel ih =>
    intro s k h1 h2
    by_cases hs : s < 2500
    · rw [swLoop_replicate_step defaultConfig d pn sn g 2500 fuel s k hs]
      have hcs : defaultConfig.chunkSize = 1000 := rfl
      have hov : defaultConfig.overlap = 200 := rfl
      have hmc : defaultConfig.minChunkSize = 100 := rfl
      rw [hcs, hov, hmc]
      have hmin : min (s + 1000) 2500 = 2500 := by omega
      rw [hmin]
      have hnext : max (s + 1) (2500 - 200) = s + 1 := by omega
      rw [hnext]
      by_cases hfit : s ≤ 2400
      · rw [if_pos (by omega), if_pos (by omega)]
        rw [List.map_append]
        rw [ih (s + 1) (k + 1) (by omega) (by omega)]
        rw [show 2401 - s = (2401 - (s + 1)) + 1 by omega, List.range'_succ]
        simp only [List.map_cons, List.map_nil, createChunk_startPosition,
          List.singleton_append]
      · rw [if_neg (by omega), if_neg (by omega)]
        rw [List.nil_append, ih (s + 1) (k + 0) (by omega) (by omega)]
        simp only [show 2401 - s = 0 by omega, show 2401 - (s + 1) = 0 by omega,
          List.range'_zero, List.map_nil]
    · rw [swLoop_of_ge defaultConfig _ d pn sn g _ s k
        (by rw [List.length_replicate]; omega)]
      simp only [show 2401 - s = 0 by omega, List.range'_zero, List.map_nil]

/-- The sliding-window run over the 2500-character uniform page: the start
offsets (relative positions, `globalStartPos = 0`) are
`0, 800, 1600, 2300, 2301, …, 2400`. -/
theorem c6_startsList (d : Str) :
    (chunkPage defaultConfig ⟨List.replicate 2500 'a', 1, []⟩ d 0).map
        (fun c => c.metadata.startPosition) =
      [0, 800, 1600] ++ (List.range' 2300 101).map (fun t : Nat => (t : Int)) := by
  rw [chunkPage]
  show (cpLoop defaultConfig d 1 (splitByStructure (List.replicate 2500 'a') []) 0).map _ = _
  rw [splitByStructure_replicate_a 2500 (by norm_num) []]
  rw [cpLoop]
  rw [if_neg (by simp [undefLeNat])]
  show ((slidingWindowChunk defaultConfig (List.replicate 2500 'a') d 1 0 none 0 ++
    cpLoop defaultConfig d 1 [] _).map _) = _
  rw [cpLoop, List.append_nil, slidingWindowChunk, List.length_replicate]
  have hcs : defaultConfig.chunkSize = 1000 := rfl
  have hov : defaultConfig.overlap = 200 := rfl
  have hmc : defaultConfig.minChunkSize = 100 := rfl
  rw [show (2500 : Nat) = 2499 + 1 from rfl,
    swLoop_replicate_step defaultConfig d 1 none 0 2500 2499 0 0 (by norm_num)]
  norm_num [hcs, hov, hmc]
  rw [show (2499 : Nat) = 2498 + 1 from rfl,
    swLoop_replicate_step defaultConfig d 1 none 0 2500 2498 800 1 (by norm_num)]
  norm_num [hcs, hov, hmc]
  rw [show (2498 : Nat) = 2497 + 1 from rfl,
    swLoop_replicate_step defaultConfig d 1 none 0 2500 2497 1600 2 (by norm_num)]
  norm_num [hcs, hov, hmc]
  rw [c6_tailLoop d 1 none 0 2497 2300 3 (by norm_num) (by norm_num)]
  simp only [List.map_cons, List.map_nil, createChunk_startPosition,
    List.singleton_append, List.cons_append, List.nil_append, zero_add]
  norm_num

/-- C6, counterexample: on the uniform 2500-character headerless page with
`chunkSize = 1000, overlap = 200`, the third and fourth chunks start at
offsets 1600 and 2300 — an advance of 700, not at least 800.  (Once the
window end reaches the page end, the start jumps to `L − overlap` and then
advances by a single character per chunk.) -/
theorem c6_advance_at_least_800_refuted :
    ((chunkPage defaultConfig ⟨List.replicate 2500 'a', 1, []⟩ "doc".toList
        0).map (fun c => c.metadata.startPosition))[2]? = some 1600 ∧
    ((chunkPage defaultConfig ⟨List.replicate 2500 'a', 1, []⟩ "doc".toList
        0).map (fun c => c.metadata.startPosition))[3]? = some 2300 ∧
    ¬(1600 + 800 ≤ (2300 : Int)) := by
  rw [c6_startsList]
  refine ⟨by decide, by decide, by decide⟩

/-- C6, amended: chunking the 2500-character headerless page (uniform
non-whitespace content) with `chunkSize = 1000, overlap = 200` yields
chunks whose start offsets are exactly `0, 800, 1600, 2300, 2301, …, 2400`:
the offsets advance by 800 between the first three chunks only; the next
advance is 700, and after the window reaches the page end each further
chunk advances by a single character. -/
theorem c6_start_offsets_exact (d : Str) :
    (chunkPage defaultConfig ⟨List.replicate 2500 'a', 1, []⟩ d 0).map
        (fun c => c.metadata.startPosition) =
      [0, 800, 1600] ++ (List.range' 2300 101).map (fun t : Nat => (t : Int)) :=
  c6_startsList d

/-! ## Claim C9: metadata self-consistency of `createChunk` -/

theorem fieldsWSAux_out (s : Str) :
    ∀ (p : Bool) (cur : Str) (out : List Str),
      fieldsWSAux p cur out s = out.reverse ++ fieldsWSAux p cur [] s := by
  induction s with
  | nil => intro p cur out; simp [fieldsWSAux]
  | cons c cs ih =>
    intro p cur out
    by_cases hw : isJsWs c
    · cases p with
      | true => simp only [fieldsWSAux, hw, if_true]; exact ih true cur out
      | false =>
        simp only [fieldsWSAux, hw, if_true, Bool.false_eq_true, if_false]
        rw [ih true [] (cur.reverse :: out), ih true [] [cur.reverse]]
        simp
    · simp only [fieldsWSAux, hw, Bool.false_eq_true, if_false]
      exact ih false (c :: cur) out

theorem countNE_fieldsWSAux (s : Str) :
    ∀ (p : Bool) (cur : Str), (p = true → cur = []) →
      ((fieldsWSAux p cur [] s).filter (fun w => 0 < w.length)).length =
        (if cur = [] then 0 else 1) + tokenCountAux cur.isEmpty s := by
  induction s with
  | nil =>
    intro p cur _
    cases cur <;> simp [fieldsWSAux, tokenCountAux]
  | cons c cs ih =>
    intro p cur hpc
    by_cases hw : isJsWs c
    · cases p with
      | true =>
        have hcur := hpc rfl
        subst hcur
        simp only [fieldsWSAux, hw, if_true]
        rw [ih true [] (fun _ => rfl)]
        simp [tokenCountAux, hw]
      | false =>
        simp only [fieldsWSAux, hw, if_true, Bool.false_eq_true, if_false]
        rw [fieldsWSAux_out cs true [] [cur.reverse], List.filter_append,
          List.length_append, ih true [] (fun _ => rfl)]
        cases cur <;> simp [tokenCountAux, hw]
    · simp only [fieldsWSAux, hw, Bool.false_eq_true, if_false]
      rw [ih false (c :: cur) (by intro h; exact absurd h (by simp))]
      cases cur <;> simp [tokenCountAux, hw]

/-- The source-side word count (`split(/\s+/)` then drop empty fields)
equals the specification-side number of maximal non-empty
whitespace-separated tokens. -/
theorem countNE_fieldsWS (s : Str) :
    ((fieldsWS s).filter (fun w => 0 < w.length)).length = tokenCount s := by
  rw [fieldsWS, countNE_fieldsWSAux s false [] (by intro h; cases h)]
  simp [tokenCount]

/-- C9: every chunk built by `createChunk` has self-consistent metadata:
`charCount` is the length of the chunk content, `wordCount` is the number
of maximal non-empty whitespace-separated tokens of the content, and the
`id` is `{documentId}-chunk-{chunkIndex}` for the chunk's own
`chunkIndex`. -/
theorem c9_createChunk_metadata_consistent (content documentId : Str)
    (pageNumber : Int) (chunkIndex : Nat) (sectionName : Option Str)
    (sp ep : Int) :
    (createChunk content documentId pageNumber chunkIndex sectionName sp
        ep).metadata.charCount =
      (createChunk content documentId pageNumber chunkIndex sectionName sp
        ep).content.length ∧
    (createChunk content documentId pageNumber chunkIndex sectionName sp
        ep).metadata.wordCount =
      tokenCount (createChunk content documentId pageNumber chunkIndex
        sectionName sp ep).content ∧
    (createChunk content documentId pageNumber chunkIndex sectionName sp
        ep).id =
      documentId ++ "-chunk-".toList ++
        natToStr (createChunk content documentId pageNumber chunkIndex
          sectionName sp ep).chunkIndex ∧
    (createChunk content documentId pageNumber chunkIndex sectionName sp
        ep).chunkIndex = chunkIndex :=
  ⟨rfl, countNE_fieldsWS content, rfl, rfl⟩

/-! ## Claim C10: `mergeSmallChunks` partitions its input -/

theorem mergeChunkGroup_singleton (c : DocumentChunk) :
    mergeChunkGroup [c] = c := rfl

theorem mergeChunkGroup_content_of_two_le (g : List DocumentChunk)
    (h : 2 ≤ g.length) :
    (mergeChunkGroup g).content = joinSep (g.map fun c => c.content) := by
  match g, h with
  | c1 :: c2 :: rest, _ => rfl

/-- The `mergeSmallChunks` loop realises a partition of `cur ++ rest` into
groups: each valid chunk is its own singleton group, maximal runs of
invalid chunks form one group each. -/
theorem msLoop_partition (cfg : ChunkingConfig) :
    ∀ (rest cur : List DocumentChunk),
      (∀ c ∈ cur, validateChunk cfg c = false) →
      ∃ gs : List (List DocumentChunk),
        gs.flatten = cur ++ rest ∧
        msLoop cfg cur rest = gs.map mergeChunkGroup ∧
        (∀ g ∈ gs, g ≠ []) ∧
        (∀ g ∈ gs, (∃ c, g = [c] ∧ validateChunk cfg c = true) ∨
          ∀ c ∈ g, validateChunk cfg c = false) := by
  intro rest
  induction rest with
  | nil =>
    intro cur hcur
    by_cases hc : cur = []
    · subst hc
      exact ⟨[], rfl, rfl, by simp, by simp⟩
    · refine ⟨[cur], by simp, ?_, ?_, ?_⟩
      · simp [msLoop, hc]
      · simpa using hc
      · intro g hg
        rw [List.mem_singleton] at hg
        subst hg
        exact Or.inr hcur
  | cons c rest ih =>
    intro cur hcur
    by_cases hv : validateChunk cfg c = true
    · obtain ⟨gs, hflat, heq, hne, hshape⟩ := ih [] (by simp)
      refine ⟨(if cur = [] then [] else [cur]) ++ [c] :: gs, ?_, ?_, ?_, ?_⟩
      · by_cases hc : cur = [] <;>
          simp [hc, hflat]
      · rw [msLoop, if_pos hv, heq]
        by_cases hc : cur = [] <;> simp [hc, mergeChunkGroup_singleton]
      · intro g hg
        rcases List.mem_append.mp hg with hg1 | hg2
        · by_cases hc : cur = []
          · simp [hc] at hg1
          · rw [if_neg hc, List.mem_singleton] at hg1
            subst hg1; exact hc
        · rcases List.mem_cons.mp hg2 with hg3 | hg4
          · subst hg3; simp
          · exact hne g hg4
      · intro g hg
        rcases List.mem_append.mp hg with hg1 | hg2
        · by_cases hc : cur = []
          · simp [hc] at hg1
          · rw [if_neg hc, List.mem_singleton] at hg1
            subst hg1; exact Or.inr hcur
        · rcases List.mem_cons.mp hg2 with hg3 | hg4
          · subst hg3; exact Or.inl ⟨c, rfl, hv⟩
          · exact hshape g hg4
    · have hv' : validateChunk cfg c = false := by
        cases hval : validateChunk cfg c
        · rfl
        · exact absurd hval hv
      obtain ⟨gs, hflat, heq, hne, hshape⟩ := ih (cur ++ [c]) (by
        intro x hx
        rcases List.mem_append.mp hx with h1 | h2
        · exact hcur x h1
        · rw [List.mem_singleton] at h2; subst h2; exact hv')
      refine ⟨gs, ?_, ?_, hne, hshape⟩
      · rw [hflat]; simp
      · rw [msLoop, if_neg hv, heq]

theorem filter_flatten_sublist (cfg : ChunkingConfig) :
    ∀ gs : List (List DocumentChunk),
      (∀ g ∈ gs, (∃ c, g = [c] ∧ validateChunk cfg c = true) ∨
        ∀ c ∈ g, validateChunk cfg c = false) →
      List.Sublist (gs.flatten.filter (validateChunk cfg))
        (gs.map mergeChunkGroup) := by
  intro gs
  induction gs with
  | nil => intro _; simp
  | cons g gs ih =>
    intro hshape
    rw [List.flatten_cons, List.filter_append, List.map_cons]
    rcases hshape g (List.mem_cons_self g gs) with ⟨c, hg, hvc⟩ | hinv
    · subst hg
      rw [mergeChunkGroup_singleton]
      simp only [List.filter_cons, hvc, if_pos, List.filter_nil]
      exact List.Sublist.cons₂ c
        (ih fun g hg => hshape g (List.mem_cons_of_mem _ hg))
    · have : g.filter (validateChunk cfg) = [] :=
        List.filter_eq_nil_iff.mpr fun a ha => by simp [hinv a ha]
      rw [this, List.nil_append]
      exact List.Sublist.cons (mergeChunkGroup g)
        (ih fun g hg => hshape g (List.mem_cons_of_mem _ hg))

/-- C10: `mergeSmallChunks` realises a partition of its input: there is a
grouping `gs` of the input list into consecutive non-empty groups (each
group either a single chunk passing `validateChunk`, kept unchanged, or a
maximal run of chunks failing it) such that the output is exactly
`mergeChunkGroup` of each group in order; a merged group of two or more
chunks has as content the `'\n\n'`-join of its members' contents, so no
input chunk's content is discarded, and the chunks passing `validateChunk`
appear unchanged, in their original relative order, as a sublist of the
output. -/
theorem c10_mergeSmallChunks_partition (cfg : ChunkingConfig)
    (chunks : List DocumentChunk) :
    ∃ gs : List (List DocumentChunk),
      gs.flatten = chunks ∧
      mergeSmallChunks cfg chunks = gs.map mergeChunkGroup ∧
      (∀ g ∈ gs, g ≠ []) ∧
      (∀ g ∈ gs, (∃ c, g = [c] ∧ validateChunk cfg c = true) ∨
        ∀ c ∈ g, validateChunk cfg c = false) ∧
      (∀ g ∈ gs, 2 ≤ g.length →
        (mergeChunkGroup g).content = joinSep (g.map fun c => c.content)) ∧
      List.Sublist (chunks.filter (validateChunk cfg))
        (mergeSmallChunks cfg chunks) := by
  obtain ⟨gs, hflat, heq, hne, hshape⟩ := msLoop_partition cfg chunks [] (by simp)
  refine ⟨gs, by simpa using hflat, heq, hne, hshape, ?_, ?_⟩
  · intro g _ h2
    exact mergeChunkGroup_content_of_two_le g h2
  · have hflat2 : gs.flatten = chunks := by simpa using hflat
    rw [mergeSmallChunks, heq, ← hflat2]
    exact filter_flatten_sublist cfg gs hshape

/-! ## Claim C2: zero-magnitude vectors and NaN -/

theorem sumSq_nonneg (v : Vec) : 0 ≤ sumSq v := by
  refine List.sum_nonneg ?_
  intro x hx
  obtain ⟨y, _, rfl⟩ := List.mem_map.mp hx
  exact mul_self_nonneg y

theorem sumSq_eq_zero_iff (v : Vec) : sumSq v = 0 ↔ ∀ x ∈ v, x = 0 := by
  induction v with
  | nil => simp [sumSq]
  | cons a v ih =>
    rw [sumSq, List.map_cons, List.sum_cons]
    constructor
    · intro h
      have h1 : 0 ≤ a * a := mul_self_nonneg a
      have h2 : 0 ≤ sumSq v := sumSq_nonneg v
      have ha : a * a = 0 := by
        have : sumSq v = (v.map fun x => x * x).sum := rfl
        rw [← this] at h
        nlinarith
      have hv : sumSq v = 0 := by
        have : sumSq v = (v.map fun x => x * x).sum := rfl
        rw [← this] at h
        nlinarith
      intro x hx
      rcases List.mem_cons.mp hx with rfl | hx2
      · exact mul_self_eq_zero.mp ha
      · exact (ih.mp hv) x hx2
    · intro h
      have ha : a = 0 := h a (List.mem_cons_self a v)
      have hv : sumSq v = 0 := ih.mpr fun x hx => h x (List.mem_cons_of_mem a hx)
      have : sumSq v = (v.map fun x => x * x).sum := rfl
      rw [← this, ha, hv]
      ring

theorem dotProduct_eq_zero_left (v1 v2 : Vec) (h : ∀ x ∈ v1, x = 0) :
    dotProduct v1 v2 = 0 := by
  induction v1 generalizing v2 with
  | nil => simp [dotProduct]
  | cons a v ih =>
    cases v2 with
    | nil => simp [dotProduct]
    | cons b w =>
      rw [dotProduct, List.zipWith_cons_cons, List.sum_cons,
        h a (List.mem_cons_self a v), zero_mul, zero_add]
      exact ih w fun x hx => h x (List.mem_cons_of_mem a hx)

theorem dotProduct_eq_zero_right (v1 v2 : Vec) (h : ∀ x ∈ v2, x = 0) :
    dotProduct v1 v2 = 0 := by
  induction v1 generalizing v2 with
  | nil => simp [dotProduct]
  | cons a v ih =>
    cases v2 with
    | nil => simp [dotProduct]
    | cons b w =>
      rw [dotProduct, List.zipWith_cons_cons, List.sum_cons,
        h b (List.mem_cons_self b w), mul_zero, zero_add]
      exact ih w fun x hx => h x (List.mem_cons_of_mem b hx)

/-- The zero-vector index entry used to refute the division-by-zero claim. -/
def idxZero : VectorIndex := [("c0".toList, ⟨[(0 : ℚ)], default⟩)]

/-- The embedding function producing a zero query vector. -/
def embedZero : Str → Vec := fun _ => [(0 : ℚ)]

/-- C2, counterexample: searching the single-entry index whose stored vector
is the zero vector with a zero query vector, the score `search` computes for
that entry is the score with `dotProduct = 0` and zero denominator — the
float division `0/0`, i.e. `NaN` — and it is not the number 0. -/
theorem c2_zero_magnitude_score_refuted :
    ((search embedZero idxZero [] 5).map fun r => r.score) =
      [SimScore.mk 0 0] ∧
    (SimScore.mk 0 0).isNaN = true ∧
    ¬(SimScore.mk 0 0).isZeroScore := by
  refine ⟨?_, by decide, ?_⟩
  · have hcs : cosineSimilarity (embedZero []) [(0 : ℚ)] = ⟨0, 0⟩ := by
      simp [cosineSimilarity, dotProduct, sumSq, embedZero]
    rw [search, if_neg (by simp [idxZero])]
    simp [idxZero, hcs, clampScore, sortByScoreDesc, insertByScore]
  · intro h
    exact h.1 rfl

/-- C2, amended: whenever the query vector or the stored vector has zero
magnitude (zero sum of squares), the similarity `search` computes for that
entry — `Math.max(0, cosineSimilarity(q, v))` — is `NaN` (the division has
a zero denominator and a zero numerator), not the number 0. -/
theorem c2_zero_magnitude_gives_nan (v1 v2 : Vec)
    (h : sumSq v1 = 0 ∨ sumSq v2 = 0) :
    (clampScore (cosineSimilarity v1 v2)).isNaN = true ∧
    ¬(clampScore (cosineSimilarity v1 v2)).isZeroScore := by
  have hden : sumSq v1 * sumSq v2 = 0 := by
    rcases h with h | h <;> rw [h] <;> ring
  have hnum : dotProduct v1 v2 = 0 := by
    rcases h with h | h
    · exact dotProduct_eq_zero_left v1 v2 ((sumSq_eq_zero_iff v1).mp h)
    · exact dotProduct_eq_zero_right v1 v2 ((sumSq_eq_zero_iff v2).mp h)
  rw [clampScore, cosineSimilarity]
  simp only [hden, hnum, if_pos]
  constructor
  · simp [SimScore.isNaN]
  · intro hz
    exact hz.1 rfl

/-- Witness for C2 at a concrete input: the zero vector against `[1]`. -/
theorem c2_zero_magnitude_gives_nan_witness :
    (sumSq [(0 : ℚ)] = 0 ∨ sumSq [(1 : ℚ)] = 0) ∧
    ((clampScore (cosineSimilarity [(0 : ℚ)] [(1 : ℚ)])).isNaN = true ∧
      ¬(clampScore (cosineSimilarity [(0 : ℚ)] [(1 : ℚ)])).isZeroScore) :=
  ⟨Or.inl (by simp [sumSq]),
   c2_zero_magnitude_gives_nan [(0 : ℚ)] [(1 : ℚ)] (Or.inl (by simp [sumSq]))⟩

/-! ## Claim C7: result count and the empty index -/

theorem insertByScore_length (x : SimEntry) (l : List SimEntry) :
    (insertByScore x l).length = l.length + 1 := by
  induction l with
  | nil => rfl
  | cons y ys ih =>
    rw [insertByScore]
    split
    · simp
    · simp [ih]

theorem sortByScoreDesc_length (l : List SimEntry) :
    (sortByScoreDesc l).length = l.length := by
  induction l with
  | nil => rfl
  | cons x xs ih =>
    rw [sortByScoreDesc, List.foldr_cons]
    rw [show List.foldr insertByScore [] xs = sortByScoreDesc xs from rfl]
    rw [insertByScore_length, ih, List.length_cons]

/-- C7: `search` returns exactly `min topK n` results on an index of `n`
entries — at most `topK`, fewer when the index holds fewer — and on an
empty index it returns the empty sequence (not an error). -/
theorem c7_search_returns_at_most_topK (embed : Str → Vec) (m : VectorIndex)
    (query : Str) (topK : Nat) :
    (search embed m query topK).length = min topK m.length ∧
    search embed ([] : VectorIndex) query topK = [] := by
  constructor
  · by_cases hm : m.length = 0
    · rw [search, if_pos hm, hm]
      simp
    · rw [search, if_neg hm]
      simp only [List.length_map, List.length_take, sortByScoreDesc_length]
  · rfl

/-! ## Claim C8: insertions keyed by `chunk.id` -/

theorem mapKeys_mapSet_of_mem (m : VectorIndex) (k : Str) (v : IndexEntry)
    (hmem : k ∈ mapKeys m) : mapKeys (mapSet m k v) = mapKeys m := by
  induction m with
  | nil => simp [mapKeys] at hmem
  | cons p rest ih =>
    obtain ⟨k0, v0⟩ := p
    rw [mapSet]
    by_cases hk : k0 = k
    · subst hk
      rw [if_pos rfl]
      rfl
    · rw [if_neg hk]
      have hmem2 : k ∈ mapKeys rest := by
        rcases List.mem_cons.mp hmem with h1 | h2
        · exact absurd h1.symm hk
        · exact h2
      show k0 :: mapKeys (mapSet rest k v) = k0 :: mapKeys rest
      rw [ih hmem2]

theorem mapKeys_mapSet_of_not_mem (m : VectorIndex) (k : Str)
    (v : IndexEntry) (hmem : k ∉ mapKeys m) :
    mapKeys (mapSet m k v) = mapKeys m ++ [k] := by
  induction m with
  | nil => rfl
  | cons p rest ih =>
    obtain ⟨k0, v0⟩ := p
    rw [mapSet]
    have hk : k0 ≠ k := fun hc => hmem (by rw [hc]; exact List.mem_cons_self _ _)
    rw [if_neg hk]
    show k0 :: mapKeys (mapSet rest k v) = (k0 :: mapKeys rest) ++ [k]
    rw [ih fun hc => hmem (List.mem_cons_of_mem _ hc), List.cons_append]

theorem mapKeys_length (m : VectorIndex) : (mapKeys m).length = m.length :=
  List.length_map m _

theorem mapKeys_mapSet_nodup (m : VectorIndex) (k : Str) (v : IndexEntry)
    (h : (mapKeys m).Nodup) : (mapKeys (mapSet m k v)).Nodup := by
  by_cases hmem : k ∈ mapKeys m
  · rwa [mapKeys_mapSet_of_mem m k v hmem]
  · rw [mapKeys_mapSet_of_not_mem m k v hmem]
    simp [List.nodup_append, h, hmem]

theorem filter_eq_nil_of_not_mem_keys (m : VectorIndex) (k : Str)
    (h : k ∉ mapKeys m) :
    m.filter (fun p => decide (p.1 = k)) = [] := by
  refine List.filter_eq_nil_iff.mpr ?_
  intro p hp
  simp only [decide_eq_true_eq]
  intro hk
  exact h (by rw [← hk]; exact List.mem_map_of_mem (fun q => q.1) hp)

theorem filter_mapSet (m : VectorIndex) (k : Str) (v : IndexEntry)
    (h : (mapKeys m).Nodup) :
    (mapSet m k v).filter (fun p => decide (p.1 = k)) = [(k, v)] := by
  induction m with
  | nil => simp [mapSet]
  | cons p rest ih =>
    obtain ⟨k0, v0⟩ := p
    rw [mapSet]
    by_cases hk : k0 = k
    · subst hk
      rw [if_pos rfl, List.filter_cons]
      simp only [decide_eq_true_eq, if_pos rfl]
      rw [filter_eq_nil_of_not_mem_keys rest k0 ?_]
      · simp
      · intro hmem
        rw [mapKeys, List.map_cons] at h
        exact (List.nodup_cons.mp h).1 hmem
    · rw [if_neg hk, List.filter_cons]
      simp only [decide_eq_true_eq, if_neg hk]
      exact ih (List.nodup_cons.mp (by rw [mapKeys, List.map_cons] at h; exact h)).2

theorem insertChunks_length (embed : Str → Vec) :
    ∀ (cs : List DocumentChunk) (m : VectorIndex),
      (mapKeys m).Nodup →
      (insertChunks embed m cs).length =
        ((mapKeys m) ++ cs.map fun c => c.id).toFinset.card := by
  intro cs
  induction cs with
  | nil =>
    intro m h
    rw [insertChunks, List.foldl_nil, List.map_nil, List.append_nil,
      List.toFinset_card_of_nodup h, mapKeys_length]
  | cons c cs ih =>
    intro m h
    rw [insertChunks, List.foldl_cons,
      show List.foldl (addChunk embed) (addChunk embed m c) cs =
        insertChunks embed (addChunk embed m c) cs from rfl,
      ih (addChunk embed m c) (mapKeys_mapSet_nodup m c.id _ h)]
    congr 1
    by_cases hmem : c.id ∈ mapKeys m
    · rw [show mapKeys (addChunk embed m c) =
        mapKeys (mapSet m c.id ⟨embed c.content, c⟩) from rfl,
        mapKeys_mapSet_of_mem m c.id _ hmem]
      ext a
      simp only [List.mem_toFinset, List.mem_append, List.mem_cons,
        List.map_cons]
      constructor
      · rintro (h1 | h2)
        · exact Or.inl h1
        · exact Or.inr (Or.inr h2)
      · rintro (h1 | h2 | h3)
        · exact Or.inl h1
        · exact Or.inl (h2 ▸ hmem)
        · exact Or.inr h3
    · rw [show mapKeys (addChunk embed m c) =
        mapKeys (mapSet m c.id ⟨embed c.content, c⟩) from rfl,
        mapKeys_mapSet_of_not_mem m c.id _ hmem]
      ext a
      simp only [List.mem_toFinset, List.mem_append, List.mem_cons,
        List.map_cons, List.not_mem_nil, or_false]
      tauto

/-- C8: inserting two chunks with the same id leaves exactly one entry for
that id, holding the second insert's vector (`embed` of the second chunk's
content) and chunk payload; and for every sequence of inserts into an
initially empty index, the index size equals the number of distinct
inserted ids. -/
theorem c8_insert_overwrites_same_id (embed : Str → Vec) (m : VectorIndex)
    (c1 c2 : DocumentChunk) (cs : List DocumentChunk)
    (hnd : (mapKeys m).Nodup) (hid : c1.id = c2.id) :
    (addChunk embed (addChunk embed m c1) c2).filter
        (fun p => decide (p.1 = c1.id)) =
      [(c2.id, ⟨embed c2.content, c2⟩)] ∧
    (insertChunks embed [] cs).length =
      (cs.map fun c => c.id).toFinset.card := by
  constructor
  · rw [hid]
    exact filter_mapSet (addChunk embed m c1) c2.id ⟨embed c2.content, c2⟩
      (mapKeys_mapSet_nodup m c1.id ⟨embed c1.content, c1⟩ hnd)
  · rw [insertChunks_length embed cs [] (by simp [mapKeys])]
    rfl

/-- Two chunks sharing the id `x` and one with id `y`, for the C8
witness. -/
def chunkW (i : Str) (content : Str) : DocumentChunk :=
  ⟨i, content, none, 1, 0, ⟨[], 0, 0, 0, 0⟩⟩

/-- Witness for C8 at concrete inputs: an empty starting index, two chunks
with id `"x"` and an insert sequence `[x, x, y]` whose distinct-id count
is 2. -/
theorem c8_insert_overwrites_same_id_witness :
    (mapKeys ([] : VectorIndex)).Nodup ∧
    (chunkW "x".toList "one".toList).id = (chunkW "x".toList "two".toList).id ∧
    ((addChunk (fun _ => [(1 : ℚ)])
        (addChunk (fun _ => [(1 : ℚ)]) [] (chunkW "x".toList "one".toList))
        (chunkW "x".toList "two".toList)).filter
          (fun p => decide (p.1 = (chunkW "x".toList "one".toList).id)) =
        [((chunkW "x".toList "two".toList).id,
          ⟨[(1 : ℚ)], chunkW "x".toList "two".toList⟩)] ∧
      (insertChunks (fun _ => [(1 : ℚ)]) []
          [chunkW "x".toList "one".toList, chunkW "x".toList "two".toList,
            chunkW "y".toList "three".toList]).length =
        ([chunkW "x".toList "one".toList, chunkW "x".toList "two".toList,
            chunkW "y".toList "three".toList].map fun c => c.id).toFinset.card) :=
  ⟨List.nodup_nil, rfl,
   c8_insert_overwrites_same_id (fun _ => [(1 : ℚ)]) []
     (chunkW "x".toList "one".toList) (chunkW "x".toList "two".toList)
     [chunkW "x".toList "one".toList, chunkW "x".toList "two".toList,
       chunkW "y".toList "three".toList]
     List.nodup_nil rfl⟩

/-! ## Claim C3: sorted scores in the unit interval -/

/-- Cauchy–Schwarz for the vector dot product. -/
theorem dotProduct_sq_le (v : Vec) : ∀ w : Vec,
    dotProduct v w * dotProduct v w ≤ sumSq v * sumSq w := by
  induction v with
  | nil =>
    intro w
    simp [dotProduct, sumSq]
  | cons a vs ih =>
    intro w
    cases w with
    | nil =>
      simp [dotProduct, sumSq]
    | cons b ws =>
      have hD := ih ws
      have hA : 0 ≤ sumSq vs := sumSq_nonneg vs
      have hB : 0 ≤ sumSq ws := sumSq_nonneg ws
      have hdot : dotProduct (a :: vs) (b :: ws) = a * b + dotProduct vs ws := by
        rw [dotProduct, List.zipWith_cons_cons, List.sum_cons]
        rfl
      have hsv : sumSq (a :: vs) = a * a + sumSq vs := by
        rw [sumSq, List.map_cons, List.sum_cons]
        rfl
      have hsw : sumSq (b :: ws) = b * b + sumSq ws := by
        rw [sumSq, List.map_cons, List.sum_cons]
        rfl
      rw [hdot, hsv, hsw]
      have h4 : (a * b * dotProduct vs ws) ^ 2 ≤
          (a * a * sumSq ws) * (b * b * sumSq vs) := by
        nlinarith [mul_le_mul_of_nonneg_left hD (mul_self_nonneg (a * b))]
      have hX : 0 ≤ a * a * sumSq ws + b * b * sumSq vs :=
        add_nonneg (mul_nonneg (mul_self_nonneg a) hB)
          (mul_nonneg (mul_self_nonneg b) hA)
      have hXsq : (2 * (a * b * dotProduct vs ws)) ^ 2 ≤
          (a * a * sumSq ws + b * b * sumSq vs) ^ 2 := by
        nlinarith [h4, sq_nonneg (a * a * sumSq ws - b * b * sumSq vs)]
      have step1 := (abs_le_of_sq_le_sq' hXsq hX).2
      nlinarith [step1, hD]

/-- Well-formedness of a clamped similarity score: positive denominator
square, non-negative numerator, and `num² ≤ den2` (Cauchy–Schwarz). -/
def GoodScore (s : SimScore) : Prop :=
  0 < s.den2 ∧ 0 ≤ s.num ∧ s.num * s.num ≤ s.den2

theorem goodScore_clamp (v1 v2 : Vec) (h1 : sumSq v1 ≠ 0)
    (h2 : sumSq v2 ≠ 0) :
    GoodScore (clampScore (cosineSimilarity v1 v2)) := by
  have hp1 : 0 < sumSq v1 := lt_of_le_of_ne (sumSq_nonneg v1) (Ne.symm h1)
  have hp2 : 0 < sumSq v2 := lt_of_le_of_ne (sumSq_nonneg v2) (Ne.symm h2)
  have hden : 0 < sumSq v1 * sumSq v2 := mul_pos hp1 hp2
  rw [clampScore, cosineSimilarity]
  rw [if_neg (by simpa using ne_of_gt hden)]
  refine ⟨hden, le_max_left 0 _, ?_⟩
  have hcs := dotProduct_sq_le v1 v2
  rcases le_or_lt 0 (dotProduct v1 v2) with hd | hd
  · simpa [max_eq_right hd] using hcs
  · simp only [max_eq_left (le_of_lt hd)]
    simpa using le_of_lt hden

theorem scoreGe_total (a b : SimScore) :
    scoreGe a b = true ∨ scoreGe b a = true := by
  simp only [scoreGe, decide_eq_true_eq]
  exact le_total _ _

theorem scoreGe_trans (a b c : SimScore) (hb : 0 < b.den2)
    (ha : 0 ≤ a.den2) (hc : 0 ≤ c.den2)
    (h1 : scoreGe a b = true) (h2 : scoreGe b c = true) :
    scoreGe a c = true := by
  simp only [scoreGe, decide_eq_true_eq] at h1 h2 ⊢
  nlinarith [mul_le_mul_of_nonneg_right h2 ha,
    mul_le_mul_of_nonneg_right h1 hc]

theorem mem_insertByScore (x z : SimEntry) (l : List SimEntry) :
    z ∈ insertByScore x l ↔ z = x ∨ z ∈ l := by
  induction l with
  | nil => simp [insertByScore]
  | cons y ys ih =>
    rw [insertByScore]
    split
    · simp only [List.mem_cons]
    · simp only [List.mem_cons, ih]
      tauto

theorem mem_sortByScoreDesc (z : SimEntry) (l : List SimEntry) :
    z ∈ sortByScoreDesc l ↔ z ∈ l := by
  induction l with
  | nil => simp [sortByScoreDesc]
  | cons y ys ih =>
    rw [sortByScoreDesc, List.foldr_cons,
      show List.foldr insertByScore [] ys = sortByScoreDesc ys from rfl,
      mem_insertByScore]
    simp [ih]

theorem pairwise_insertByScore (x : SimEntry) (l : List SimEntry)
    (hgood : ∀ z ∈ x :: l, GoodScore z.score)
    (hp : List.Pairwise (fun a b => scoreGe a.score b.score = true) l) :
    List.Pairwise (fun a b => scoreGe a.score b.score = true)
      (insertByScore x l) := by
  induction l with
  | nil => simp [insertByScore]
  | cons y ys ih =>
    have hgx : GoodScore x.score := hgood x (List.mem_cons_self _ _)
    have hgy : GoodScore y.score :=
      hgood y (List.mem_cons_of_mem _ (List.mem_cons_self _ _))
    rw [insertByScore]
    split
    · rename_i hxy
      rw [List.pairwise_cons]
      refine ⟨?_, hp⟩
      intro z hz
      rcases List.mem_cons.mp hz with rfl | hz2
      · exact hxy
      · have hyz := (List.pairwise_cons.mp hp).1 z hz2
        have hgz : GoodScore z.score := hgood z
          (List.mem_cons_of_mem _ (List.mem_cons_of_mem _ hz2))
        exact scoreGe_trans x.score y.score z.score hgy.1
          (le_of_lt hgx.1) (le_of_lt hgz.1) hxy hyz
    · rename_i hxy
      have hyx : scoreGe y.score x.score = true := by
        rcases scoreGe_total x.score y.score with h | h
        · exact absurd h hxy
        · exact h
      rw [List.pairwise_cons]
      constructor
      · intro z hz
        rcases (mem_insertByScore x z ys).mp hz with rfl | hz2
        · exact hyx
        · exact (List.pairwise_cons.mp hp).1 z hz2
      · refine ih ?_ (List.pairwise_cons.mp hp).2
        intro z hz
        rcases List.mem_cons.mp hz with rfl | hz2
        · exact hgx
        · exact hgood z (List.mem_cons_of_mem _ (List.mem_cons_of_mem _ hz2))

theorem pairwise_sortByScoreDesc (l : List SimEntry)
    (hgood : ∀ z ∈ l, GoodScore z.score) :
    List.Pairwise (fun a b => scoreGe a.score b.score = true)
      (sortByScoreDesc l) := by
  induction l with
  | nil => simp [sortByScoreDesc]
  | cons y ys ih =>
    rw [sortByScoreDesc, List.foldr_cons,
      show List.foldr insertByScore [] ys = sortByScoreDesc ys from rfl]
    refine pairwise_insertByScore y (sortByScoreDesc ys) ?_ ?_
    · intro z hz
      rcases List.mem_cons.mp hz with rfl | hz2
      · exact hgood z (List.mem_cons_self _ _)
      · exact hgood z (List.mem_cons_of_mem _
          ((mem_sortByScoreDesc z ys).mp hz2))
    · exact ih fun z hz => hgood z (List.mem_cons_of_mem _ hz)

theorem goodScore_val_nonneg_le_one (s : SimScore) (h : GoodScore s) :
    0 ≤ s.val ∧ s.val ≤ 1 := by
  obtain ⟨hd, hn, hsq⟩ := h
  have hdR : (0 : ℝ) < (s.den2 : ℝ) := by exact_mod_cast hd
  have hnR : (0 : ℝ) ≤ (s.num : ℝ) := by exact_mod_cast hn
  have hsqrt : 0 < Real.sqrt (s.den2 : ℝ) := Real.sqrt_pos.mpr hdR
  constructor
  · exact div_nonneg hnR (le_of_lt hsqrt)
  · rw [SimScore.val, div_le_one hsqrt]
    have hsqR : ((s.num : ℝ)) ^ 2 ≤ (s.den2 : ℝ) := by
      have : ((s.num : ℚ)) * s.num ≤ (s.den2 : ℚ) := hsq
      rw [sq]
      exact_mod_cast this
    exact (Real.le_sqrt hnR (le_of_lt hdR)).mpr hsqR

theorem scoreGe_val (a b : SimScore) (ha : GoodScore a) (hb : GoodScore b)
    (h : scoreGe a b = true) : b.val ≤ a.val := by
  simp only [scoreGe, decide_eq_true_eq] at h
  have haR : (0 : ℝ) < (a.den2 : ℝ) := by exact_mod_cast ha.1
  have hbR : (0 : ℝ) < (b.den2 : ℝ) := by exact_mod_cast hb.1
  have hna : (0 : ℝ) ≤ (a.num : ℝ) := by exact_mod_cast ha.2.1
  have hnb : (0 : ℝ) ≤ (b.num : ℝ) := by exact_mod_cast hb.2.1
  have hR : (b.num : ℝ) * (b.num : ℝ) * (a.den2 : ℝ) ≤
      (a.num : ℝ) * (a.num : ℝ) * (b.den2 : ℝ) := by exact_mod_cast h
  rw [SimScore.val, SimScore.val,
    div_le_div_iff₀ (Real.sqrt_pos.mpr hbR) (Real.sqrt_pos.mpr haR)]
  have e1 : (b.num : ℝ) * Real.sqrt (a.den2 : ℝ) =
      Real.sqrt ((b.num : ℝ) * (b.num : ℝ) * (a.den2 : ℝ)) := by
    rw [Real.sqrt_mul (mul_self_nonneg _), Real.sqrt_mul_self hnb]
  have e2 : (a.num : ℝ) * Real.sqrt (b.den2 : ℝ) =
      Real.sqrt ((a.num : ℝ) * (a.num : ℝ) * (b.den2 : ℝ)) := by
    rw [Real.sqrt_mul (mul_self_nonneg _), Real.sqrt_mul_self hna]
  rw [e1, e2]
  exact Real.sqrt_le_sqrt hR

/-- C3, counterexample: with a zero query vector and the non-empty
single-entry index holding the zero vector, `search` returns a score that
is `NaN` (`0/0`), which does not lie in the closed interval `[0, 1]`, so
the claim fails as stated (it holds only when the vectors involved have
non-zero magnitude). -/
theorem c3_scores_in_unit_interval_refuted :
    idxZero ≠ [] ∧
    ((search embedZero idxZero [] 5).map fun r => r.score) =
      [SimScore.mk 0 0] ∧
    ¬(SimScore.mk 0 0).inZeroOne := by
  refine ⟨by decide, ?_, ?_⟩
  · have hcs : cosineSimilarity (embedZero []) [(0 : ℚ)] = ⟨0, 0⟩ := by
      simp [cosineSimilarity, dotProduct, sumSq, embedZero]
    rw [search, if_neg (by simp [idxZero])]
    simp [idxZero, hcs, clampScore, sortByScoreDesc, insertByScore]
  · intro h
    exact h.1 rfl

/-- C3, amended: for every embedding function, query, `topK` and non-empty
index in which the query vector and all stored vectors have non-zero
magnitude, `search` returns results whose scores are sorted in
non-increasing order of real value, and every returned score lies in the
closed interval `[0, 1]` (negative cosine similarities are clamped to 0
before ranking). -/
theorem c3_scores_sorted_in_unit_interval (embed : Str → Vec)
    (m : VectorIndex) (query : Str) (topK : Nat) (hm : m ≠ [])
    (hq : sumSq (embed query) ≠ 0)
    (hv : ∀ p ∈ m, sumSq (p.2 : IndexEntry).vector ≠ 0) :
    List.Pairwise (fun a b : SearchResult => b.score.val ≤ a.score.val)
      (search embed m query topK) ∧
    ∀ r ∈ search embed m query topK, r.score.inZeroOne := by
  have hm0 : ¬(m.length = 0) := fun h => hm (List.length_eq_zero.mp h)
  rw [search, if_neg hm0]
  show List.Pairwise _
      (((sortByScoreDesc (m.map fun p => SimEntry.mk p.1
        (clampScore (cosineSimilarity (embed query) p.2.vector))
        (calculateDistanceSq (embed query) p.2.vector))).take topK).map _) ∧ _
  set sims := m.map fun p => SimEntry.mk p.1
    (clampScore (cosineSimilarity (embed query) p.2.vector))
    (calculateDistanceSq (embed query) p.2.vector) with hsims
  have hgood : ∀ z ∈ sims, GoodScore z.score := by
    intro z hz
    rw [hsims] at hz
    obtain ⟨p, hp, rfl⟩ := List.mem_map.mp hz
    exact goodScore_clamp _ _ hq (hv p hp)
  have hsorted := pairwise_sortByScoreDesc sims hgood
  have hgoodTake : ∀ z ∈ (sortByScoreDesc sims).take topK, GoodScore z.score :=
    fun z hz => hgood z
      ((mem_sortByScoreDesc z sims).mp ((List.take_sublist _ _).subset hz))
  constructor
  · rw [List.pairwise_map]
    refine List.Pairwise.imp_of_mem ?_
      (List.Pairwise.sublist (List.take_sublist topK _) hsorted)
    intro a b hamem hbmem hab
    exact scoreGe_val a.score b.score (hgoodTake a hamem) (hgoodTake b hbmem) hab
  · intro r hr
    obtain ⟨e, he, rfl⟩ := List.mem_map.mp hr
    have hge : GoodScore e.score := hgoodTake e he
    have hval := goodScore_val_nonneg_le_one e.score hge
    exact ⟨ne_of_gt hge.1, hval.1, hval.2⟩

/-- The unit-vector single-entry index used as the C3 witness input. -/
def idxOne : VectorIndex := [("c1".toList, ⟨[(1 : ℚ)], default⟩)]

/-- The embedding function producing the unit query vector `[1]`. -/
def embedOne : Str → Vec := fun _ => [(1 : ℚ)]

/-- Witness for C3 at a concrete input: the single-entry index with the
vector `[1]` and the query vector `[1]`. -/
theorem c3_scores_sorted_in_unit_interval_witness :
    idxOne ≠ [] ∧ sumSq (embedOne []) ≠ 0 ∧
    (∀ p ∈ idxOne, sumSq (p.2 : IndexEntry).vector ≠ 0) ∧
    (List.Pairwise (fun a b : SearchResult => b.score.val ≤ a.score.val)
        (search embedOne idxOne [] 5) ∧
      ∀ r ∈ search embedOne idxOne [] 5, r.score.inZeroOne) :=
  ⟨by decide, by simp [sumSq, embedOne],
   by
    intro p hp
    simp only [idxOne, List.mem_singleton] at hp
    subst hp
    simp [sumSq],
   c3_scores_sorted_in_unit_interval embedOne idxOne [] 5 (by decide)
     (by simp [sumSq, embedOne])
     (by
      intro p hp
      simp only [idxOne, List.mem_singleton] at hp
      subst hp
      simp [sumSq])⟩

end DocIntel
